import Mathlib

/-!
Verification of the dot-path accessor family (`getdot`, `setdot`, `hasdot`)
and the structural type matcher (`isinstance_check`) of the
`ddeutil.core.__base` module, via a shallow embedding in Lean 4.

Nested mapping values are modelled by the inductive type `Val`; Python dicts
become association lists with string keys (paths only ever look up string
keys).  Python `ValueError` raise sites become `Except Err` errors whose
constructor records which raise fired and the data interpolated into its
message.

The path-splitter collaborator `splitter.must_split` is not part of the
provided sources (only its callers are).  Modelled from the spec: it splits a
path string on the first dot, returning the head segment and the remainder;
repeated splitting turns a path into its non-empty list of segments.  The
functions below therefore receive a path in already-split form, as a head
segment `seg` plus the list `rest` of remaining segments, and each recursive
call consumes exactly one segment, mirroring the source recursion.
-/

/-- A runtime value of the nested structure: leaves (none / int / string /
bool) or a mapping from string keys to values. -/
inductive Val where
  | vnone : Val
  | vint : Int → Val
  | vstr : String → Val
  | vbool : Bool → Val
  | vdict : List (String × Val) → Val

/-- Python `key in content` / `content[key]` on a dict, as association-list
lookup (first matching entry; keys are unique in actual Python dicts). -/
def lookupD : List (String × Val) → String → Option Val
  | [], _ => none
  | (k, w) :: ds, key => if k = key then some w else lookupD ds key

/-- Python `content[key] = v` for a key already present: replace the value at
the first entry whose key matches, preserving entry order. -/
def replaceVal : List (String × Val) → String → Val → List (String × Val)
  | [], _, _ => []
  | (k, w) :: ds, key, v =>
    if k = key then (k, v) :: ds else (k, w) :: replaceVal ds key v

/-- Python `_search.endswith("?")`: the segment's last character is `'?'`. -/
def endsWithQ (s : String) : Bool :=
  match s.data.getLast? with
  | some c => c = '?'
  | none => false

/-- Python `_search.rstrip("?")`: remove every trailing `'?'` character. -/
def rstripQ (s : String) : String :=
  String.mk ((s.data.reverse.dropWhile (fun c => c = '?')).reverse)

/-- The two `ValueError` raise sites of the path accessors, with the data
interpolated into their messages: `pathMismatch rest hit` is
`ValueError(f"{rest!r} does not exists in {hit}")` (descending into a
non-mapping), `pathNotFound key content` is
`ValueError(f"{key!r} does not exists in {content}")` (missing key). -/
inductive Err where
  | pathMismatch : List String → Val → Err
  | pathNotFound : String → Val → Err

/-- The fall-through tail of `getdot` (lines 326-330 of the source): positional
default first, then `ignore`, else raise. -/
def getdotFall (key : String) (content : Val) (args : Option Val)
    (ignore : Bool) : Except Err Val :=
  match args with
  | some d => .ok d
  | none => if ignore then .ok .vnone else .error (.pathNotFound key content)

/-- Shallow embedding of `getdot` (source lines 273-330).  `args` is `some d`
when a positional default `d` was supplied (the source only inspects
truthiness of `args` and `args[0]`).  The `?`-marker is stripped before the
key lookup; a present key always proceeds; an absent optional key returns
`None`; otherwise control falls through to default / ignore / raise. -/
def getdot (seg : String) (rest : List String) (content : Val)
    (args : Option Val) (ignore : Bool) : Except Err Val :=
  match content with
  | .vdict d =>
    match lookupD d (rstripQ seg) with
    | some v =>
      match rest with
      | [] => .ok v
      | r :: rs =>
        match v with
        | .vdict _ => getdot r rs v args ignore
        | _ =>
          if ignore then .ok .vnone else .error (.pathMismatch (r :: rs) v)
    | none =>
      if endsWithQ seg then .ok .vnone
      else getdotFall (rstripQ seg) content args ignore
  | _ => getdotFall seg content args ignore

/-- Shallow embedding of `setdot` (source lines 333-355).  Note the source
performs no `?`-stripping here: segments are matched as literal keys.  The
in-place assignments `content[_search] = ...` become `replaceVal`, and the
returned mapping is the updated content. -/
def setdot (seg : String) (rest : List String) (content : List (String × Val))
    (value : Val) (ignore : Bool) : Except Err (List (String × Val)) :=
  match lookupD content seg with
  | some result =>
    match rest with
    | [] => .ok (replaceVal content seg value)
    | r :: rs =>
      match result with
      | .vdict sub =>
        (setdot r rs sub value ignore).map
          (fun m => replaceVal content seg (.vdict m))
      | _ =>
        if ignore then .ok content
        else .error (.pathMismatch (r :: rs) result)
  | none =>
    if ignore then .ok content
    else .error (.pathNotFound seg (.vdict content))

/-- Shallow embedding of `hasdot` (source lines 253-270): no `?`-stripping, no
errors, a plain boolean. -/
def hasdot (seg : String) (rest : List String) (content : Val) : Bool :=
  match content with
  | .vdict d =>
    match lookupD d seg with
    | some result =>
      match rest with
      | [] => true
      | r :: rs =>
        match result with
        | .vdict _ => hasdot r rs result
        | _ => false
    | none => false
  | _ => false

/-- Spec-side notion "the path fully resolves in the structure": every
segment's key is present (matched literally) and every non-final value is
itself a mapping; returns the resolved leaf value. -/
def resolveDot (seg : String) (rest : List String) (content : Val) :
    Option Val :=
  match content with
  | .vdict d =>
    match lookupD d seg with
    | some v =>
      match rest with
      | [] => some v
      | r :: rs =>
        match v with
        | .vdict _ => resolveDot r rs v
        | _ => none
    | none => none
  | _ => none

/-- Spec-side condition "the path has an absent or non-mapping intermediate
segment": while walking, some non-final segment's key is missing or its value
is not a mapping. -/
def intermediateBroken : String → List String → List (String × Val) → Bool
  | _, [], _ => false
  | seg, r :: rs, d =>
    match lookupD d seg with
    | some (.vdict sub) => intermediateBroken r rs sub
    | some _ => true
    | none => true

/-- Spec-side condition "every intermediate segment resolves to a mapping but
the final segment's key is absent from its parent mapping". -/
def finalAbsent : String → List String → List (String × Val) → Bool
  | seg, [], d => (lookupD d seg).isNone
  | seg, r :: rs, d =>
    match lookupD d seg with
    | some (.vdict sub) => finalAbsent r rs sub
    | some _ => false
    | none => false

/-- Spec-side notion of a write that only overwrites the value at an
already-existing path and inserts nothing: fails unless every segment's key
(including the final one) is present and every intermediate value is a
mapping. -/
def updateExisting : String → List String → List (String × Val) → Val →
    Option (List (String × Val))
  | seg, [], d, v =>
    match lookupD d seg with
    | some _ => some (replaceVal d seg v)
    | none => none
  | seg, r :: rs, d, v =>
    match lookupD d seg with
    | some (.vdict sub) =>
      (updateExisting r rs sub v).map (fun sub2 => replaceVal d seg (.vdict sub2))
    | some _ => none
    | none => none

/-- C1: when the current segment's key (after stripping trailing `?`) is not
found in the current mapping, `getdot` resolves the absence by: optional
marker first (return `None`, even over a supplied default), then positional
default, then `ignore` (return `None`), else a `PathNotFound` error. -/
theorem getdot_absent_precedence (seg : String) (rest : List String)
    (d : List (String × Val)) (args : Option Val) (ignore : Bool)
    (h : lookupD d (rstripQ seg) = none) :
    getdot seg rest (.vdict d) args ignore =
      (if endsWithQ seg then .ok .vnone
       else
         match args with
         | some dflt => .ok dflt
         | none =>
           if ignore then .ok .vnone
           else .error (.pathNotFound (rstripQ seg) (.vdict d))) := by
  cases ho : endsWithQ seg <;> cases args <;> cases ignore <;>
    simp [getdot, getdotFall, h, ho]

/-- Witness for C1 at a concrete input: key `"b"` absent, non-optional, a
positional default supplied together with `ignore`: the default wins. -/
theorem getdot_absent_precedence_witness :
    getdot "b" [] (.vdict [("a", .vint 1)]) (some (.vint 7)) true =
      .ok (.vint 7) :=
  (getdot_absent_precedence "b" [] [("a", .vint 1)] (some (.vint 7)) true
    rfl).trans rfl

/-- C2: when the current segment's key is found but its value is not a
mapping and path segments remain, `getdot` returns `None` under `ignore` and
otherwise fails with the `PathMismatch` error naming the remainder and the
value it hit. -/
theorem getdot_mismatch (seg r : String) (rs : List String)
    (d : List (String × Val)) (v : Val) (args : Option Val) (ignore : Bool)
    (h : lookupD d (rstripQ seg) = some v) (hv : ∀ sub, v ≠ Val.vdict sub) :
    getdot seg (r :: rs) (.vdict d) args ignore =
      if ignore then .ok .vnone else .error (.pathMismatch (r :: rs) v) := by
  cases v with
  | vdict sub => exact absurd rfl (hv sub)
  | vnone => simp [getdot, h]
  | vint n => simp [getdot, h]
  | vstr s => simp [getdot, h]
  | vbool b => simp [getdot, h]

/-- Witness for C2 at the claim's concrete input:
`get("a.b", {"a": "leaf"})` with `ignore=false` raises `PathMismatch`. -/
theorem getdot_mismatch_witness :
    getdot "a" ["b"] (.vdict [("a", .vstr "leaf")]) none false =
      .error (.pathMismatch ["b"] (.vstr "leaf")) :=
  (getdot_mismatch "a" "b" [] [("a", .vstr "leaf")] (.vstr "leaf") none false
    rfl (fun _ hs => Val.noConfusion hs)).trans rfl

theorem rstripQ_eq_self (s : String) (h : endsWithQ s = false) :
    rstripQ s = s := by
  cases s with
  | mk data =>
    unfold rstripQ
    cases hrev : data.reverse with
    | nil =>
      have hd : data = [] := by
        have := congrArg List.reverse hrev
        simpa using this
      simp [hd]
    | cons c t =>
      have hlast : data.getLast? = some c := by
        rw [← List.head?_reverse, hrev]
        rfl
      have hc : (c = '?') = False := by
        unfold endsWithQ at h
        rw [hlast] at h
        simpa using h
      have hback : (c :: t).reverse = data := by
        rw [← hrev, List.reverse_reverse]
      simp [hrev, List.dropWhile_cons, hc, hback]

theorem replaceVal_self (d : List (String × Val)) (k : String) (v : Val)
    (h : lookupD d k = some v) : replaceVal d k v = d := by
  induction d with
  | nil => simp [lookupD] at h
  | cons kv ds ih =>
    obtain ⟨k0, w⟩ := kv
    by_cases hk : k0 = k
    · simp [lookupD, hk] at h
      simp [replaceVal, hk, h]
    · simp [lookupD, hk] at h
      simp [replaceVal, hk, ih h]

theorem lookupD_replaceVal_self (d : List (String × Val)) (k : String)
    (v w : Val) (h : lookupD d k = some w) :
    lookupD (replaceVal d k v) k = some v := by
  induction d with
  | nil => simp [lookupD] at h
  | cons kv ds ih =>
    obtain ⟨k0, w0⟩ := kv
    by_cases hk : k0 = k
    · simp [replaceVal, lookupD, hk]
    · simp [lookupD, hk] at h
      simp [replaceVal, lookupD, hk, ih h]

theorem keys_replaceVal (d : List (String × Val)) (k : String) (v : Val) :
    (replaceVal d k v).map Prod.fst = d.map Prod.fst := by
  induction d with
  | nil => simp [replaceVal]
  | cons kv ds ih =>
    obtain ⟨k0, w0⟩ := kv
    by_cases hk : k0 = k
    · simp [replaceVal, hk]
    · simp [replaceVal, hk, ih]

/-- C3: for a path with an absent or non-mapping intermediate segment,
`setdot` with `ignore=true` returns the content completely unchanged and
`setdot` with `ignore=false` raises an error; no intermediate mapping is ever
created and no nesting level is mutated on failure. -/
theorem setdot_broken_intermediate (seg : String) (rest : List String)
    (d : List (String × Val)) (v : Val)
    (h : intermediateBroken seg rest d = true) :
    setdot seg rest d v true = .ok d ∧
    ∃ e, setdot seg rest d v false = .error e := by
  induction rest generalizing seg d with
  | nil => simp [intermediateBroken] at h
  | cons r rs ih =>
    cases hl : lookupD d seg with
    | none =>
      exact ⟨by simp [setdot, hl],
        ⟨Err.pathNotFound seg (.vdict d), by simp [setdot, hl]⟩⟩
    | some res =>
      cases res with
      | vdict sub =>
        have hb : intermediateBroken r rs sub = true := by
          simpa [intermediateBroken, hl] using h
        obtain ⟨h1, e, h2⟩ := ih r sub hb
        refine ⟨?_, ⟨e, ?_⟩⟩
        · simp [setdot, hl, h1, Except.map, replaceVal_self d seg _ hl]
        · simp [setdot, hl, h2, Except.map]
      | vnone =>
        exact ⟨by simp [setdot, hl],
          ⟨Err.pathMismatch (r :: rs) .vnone, by simp [setdot, hl]⟩⟩
      | vint n =>
        exact ⟨by simp [setdot, hl],
          ⟨Err.pathMismatch (r :: rs) (.vint n), by simp [setdot, hl]⟩⟩
      | vstr s =>
        exact ⟨by simp [setdot, hl],
          ⟨Err.pathMismatch (r :: rs) (.vstr s), by simp [setdot, hl]⟩⟩
      | vbool b =>
        exact ⟨by simp [setdot, hl],
          ⟨Err.pathMismatch (r :: rs) (.vbool b), by simp [setdot, hl]⟩⟩

/-- Witness for C3 at the spec's concrete input:
`set("a.b.c", {"a": {"b": 1}}, 2, ignore=true)` leaves the content
unchanged. -/
theorem setdot_broken_intermediate_witness :
    setdot "a" ["b", "c"] [("a", .vdict [("b", .vint 1)])] (.vint 2) true =
      .ok [("a", .vdict [("b", .vint 1)])] :=
  (setdot_broken_intermediate "a" ["b", "c"]
    [("a", .vdict [("b", .vint 1)])] (.vint 2) rfl).1

/-- C4: write/read round trip.  For a non-optional path that fully resolves
in `m`, `setdot` succeeds, returns the updated content mapping, and `getdot`
on that returned content yields the value just written. -/
theorem setdot_getdot_roundtrip (seg : String) (rest : List String)
    (m : List (String × Val)) (v w : Val)
    (hq : ∀ s ∈ seg :: rest, endsWithQ s = false)
    (h : resolveDot seg rest (.vdict m) = some w) :
    ∃ m2, setdot seg rest m v false = .ok m2 ∧
      getdot seg rest (.vdict m2) none false = .ok v := by
  induction rest generalizing seg m with
  | nil =>
    have hl : lookupD m seg = some w := by
      cases hl0 : lookupD m seg with
      | none => simp [resolveDot, hl0] at h
      | some u =>
        simp [resolveDot, hl0] at h
        rw [h]
    refine ⟨replaceVal m seg v, by simp [setdot, hl], ?_⟩
    have hs : rstripQ seg = seg := rstripQ_eq_self seg (hq seg (by simp))
    simp [getdot, hs, lookupD_replaceVal_self m seg v w hl]
  | cons r rs ih =>
    cases hl : lookupD m seg with
    | none => simp [resolveDot, hl] at h
    | some res =>
      cases res with
      | vdict sub =>
        have h2 : resolveDot r rs (.vdict sub) = some w := by
          simpa [resolveDot, hl] using h
        obtain ⟨s2, hset, hget⟩ :=
          ih r sub (fun s hs => hq s (List.mem_cons_of_mem _ hs)) h2
        refine ⟨replaceVal m seg (.vdict s2), ?_, ?_⟩
        · simp [setdot, hl, hset, Except.map]
        · have hs : rstripQ seg = seg := rstripQ_eq_self seg (hq seg (by simp))
          simp [getdot, hs,
            lookupD_replaceVal_self m seg (Val.vdict s2) _ hl, hget]
      | vnone => simp [resolveDot, hl] at h
      | vint n => simp [resolveDot, hl] at h
      | vstr s => simp [resolveDot, hl] at h
      | vbool b => simp [resolveDot, hl] at h

/-- Witness for C4: writing `2` at `"a.b"` in `{"a": {"b": 1}}` then reading
`"a.b"` from the returned content yields `2`. -/
theorem setdot_getdot_roundtrip_witness :
    ∃ m2, setdot "a" ["b"] [("a", .vdict [("b", .vint 1)])] (.vint 2) false =
        .ok m2 ∧
      getdot "a" ["b"] (.vdict m2) none false = .ok (.vint 2) :=
  setdot_getdot_roundtrip "a" ["b"] [("a", .vdict [("b", .vint 1)])]
    (.vint 2) (.vint 1) (by decide) rfl

theorem setdot_cons_vdict (seg r : String) (rs : List String)
    (d sub : List (String × Val)) (v : Val) (ig : Bool)
    (hl : lookupD d seg = some (.vdict sub)) :
    setdot seg (r :: rs) d v ig =
      (setdot r rs sub v ig).map (fun m => replaceVal d seg (.vdict m)) := by
  rw [setdot.eq_def, hl]

theorem updateExisting_cons_vdict (seg r : String) (rs : List String)
    (d sub : List (String × Val)) (v : Val)
    (hl : lookupD d seg = some (.vdict sub)) :
    updateExisting seg (r :: rs) d v =
      (updateExisting r rs sub v).map
        (fun sub2 => replaceVal d seg (.vdict sub2)) := by
  rw [updateExisting.eq_def]
  simp [hl]

/-- C5: `setdot` never inserts a key.  A successful write is exactly an
overwrite of an already-existing path (`updateExisting`), or — only under
`ignore` — the unchanged content; an overwrite preserves the key list of the
parent mapping; and an absent final key makes `setdot` raise
(`ignore=false`) or return the content unchanged (`ignore=true`). -/
theorem setdot_key_invariant (seg : String) (rest : List String)
    (d : List (String × Val)) (v : Val) (ignore : Bool)
    (d2 : List (String × Val)) :
    (setdot seg rest d v ignore = .ok d2 →
      updateExisting seg rest d v = some d2 ∨ (ignore = true ∧ d2 = d)) ∧
    (updateExisting seg rest d v = some d2 →
      d2.map Prod.fst = d.map Prod.fst) ∧
    (finalAbsent seg rest d = true →
      setdot seg rest d v true = .ok d ∧
      ∃ e, setdot seg rest d v false = .error e) := by
  induction rest generalizing seg d d2 with
  | nil =>
    refine ⟨?_, ?_, ?_⟩
    · intro hok
      cases hl : lookupD d seg with
      | none =>
        cases ignore with
        | true =>
          have hok2 : d = d2 := by simpa [setdot, hl] using hok
          exact Or.inr ⟨rfl, hok2.symm⟩
        | false => simp [setdot, hl] at hok
      | some w =>
        have hok2 : replaceVal d seg v = d2 := by simpa [setdot, hl] using hok
        exact Or.inl (by simp [updateExisting, hl, hok2])
    · intro hup
      cases hl : lookupD d seg with
      | none => simp [updateExisting, hl] at hup
      | some w =>
        have h2 : replaceVal d seg v = d2 := by
          simpa [updateExisting, hl] using hup
        rw [← h2, keys_replaceVal]
    · intro hfa
      have hl : lookupD d seg = none := by
        cases hl0 : lookupD d seg with
        | none => rfl
        | some w => simp [finalAbsent, hl0] at hfa
      exact ⟨by simp [setdot, hl],
        ⟨Err.pathNotFound seg (.vdict d), by simp [setdot, hl]⟩⟩
  | cons r rs ih =>
    refine ⟨?_, ?_, ?_⟩
    · intro hok
      cases hl : lookupD d seg with
      | none =>
        cases ignore with
        | true =>
          have hok2 : d = d2 := by simpa [setdot, hl] using hok
          exact Or.inr ⟨rfl, hok2.symm⟩
        | false => simp [setdot, hl] at hok
      | some res =>
        cases res with
        | vdict sub =>
          rw [setdot_cons_vdict seg r rs d sub v ignore hl] at hok
          cases hrec : setdot r rs sub v ignore with
          | error e => rw [hrec] at hok; simp [Except.map] at hok
          | ok sub2 =>
            rw [hrec] at hok
            simp only [Except.map, Except.ok.injEq] at hok
            rcases (ih r sub sub2).1 hrec with hup | ⟨hig, hsame⟩
            · refine Or.inl ?_
              rw [updateExisting_cons_vdict seg r rs d sub v hl, hup]
              simp [Option.map, hok]
            · refine Or.inr ⟨hig, ?_⟩
              rw [← hok, hsame, replaceVal_self d seg _ hl]
        | vnone =>
          cases ignore with
          | true =>
            have hok2 : d = d2 := by simpa [setdot, hl] using hok
            exact Or.inr ⟨rfl, hok2.symm⟩
          | false => simp [setdot, hl] at hok
        | vint n =>
          cases ignore with
          | true =>
            have hok2 : d = d2 := by simpa [setdot, hl] using hok
            exact Or.inr ⟨rfl, hok2.symm⟩
          | false => simp [setdot, hl] at hok
        | vstr s =>
          cases ignore with
          | true =>
            have hok2 : d = d2 := by simpa [setdot, hl] using hok
            exact Or.inr ⟨rfl, hok2.symm⟩
          | false => simp [setdot, hl] at hok
        | vbool b =>
          cases ignore with
          | true =>
            have hok2 : d = d2 := by simpa [setdot, hl] using hok
            exact Or.inr ⟨rfl, hok2.symm⟩
          | false => simp [setdot, hl] at hok
    · intro hup
      cases hl : lookupD d seg with
      | none => simp [updateExisting, hl] at hup
      | some res =>
        cases res with
        | vdict sub =>
          rw [updateExisting_cons_vdict seg r rs d sub v hl] at hup
          cases hrec : updateExisting r rs sub v with
          | none => rw [hrec] at hup; simp at hup
          | some sub2 =>
            rw [hrec] at hup
            simp only [Option.map, Option.some.injEq] at hup
            rw [← hup, keys_replaceVal]
        | vnone => simp [updateExisting, hl] at hup
        | vint n => simp [updateExisting, hl] at hup
        | vstr s => simp [updateExisting, hl] at hup
        | vbool b => simp [updateExisting, hl] at hup
    · intro hfa
      cases hl : lookupD d seg with
      | none => simp [finalAbsent, hl] at hfa
      | some res =>
        cases res with
        | vdict sub =>
          have hfa2 : finalAbsent r rs sub = true := by
            simpa [finalAbsent, hl] using hfa
          obtain ⟨h1, e, h2⟩ := (ih r sub d2).2.2 hfa2
          refine ⟨?_, ⟨e, ?_⟩⟩
          · rw [setdot_cons_vdict seg r rs d sub v true hl, h1]
            simp [Except.map, replaceVal_self d seg _ hl]
          · rw [setdot_cons_vdict seg r rs d sub v false hl, h2]
            simp [Except.map]
        | vnone => simp [finalAbsent, hl] at hfa
        | vint n => simp [finalAbsent, hl] at hfa
        | vstr s => simp [finalAbsent, hl] at hfa
        | vbool b => simp [finalAbsent, hl] at hfa

/-- Witness for C5: writing at the absent final key `"b"` of `{"a": 1}` with
`ignore=true` returns the content unchanged. -/
theorem setdot_key_invariant_witness :
    setdot "b" [] [("a", .vint 1)] (.vint 2) true = .ok [("a", .vint 1)] :=
  ((setdot_key_invariant "b" [] [("a", .vint 1)] (.vint 2) true []).2.2 rfl).1

/-- C6 counterexample: with `m = {"b": 1}` and the path `"a?"` (an
optional-marked segment whose stripped key `"a"` is absent), the claim
predicts `setdot` returns `m` unchanged; the code instead matches the
segment literally (no `?` handling in `setdot`) and raises `PathNotFound`
for the literal key `"a?"`. -/
theorem setdot_optional_counterexample :
    setdot "a?" [] [("b", .vint 1)] (.vint 2) false =
      .error (.pathNotFound "a?" (.vdict [("b", .vint 1)])) ∧
    setdot "a?" [] [("b", .vint 1)] (.vint 2) false ≠
      .ok [("b", .vint 1)] := by
  have h1 : setdot "a?" [] [("b", Val.vint 1)] (Val.vint 2) false =
      .error (.pathNotFound "a?" (.vdict [("b", Val.vint 1)])) := rfl
  exact ⟨h1, fun hcontra => Except.noConfusion (h1.symm.trans hcontra)⟩

/-- C6 amended: `setdot` gives trailing `?` no optional-marker treatment —
a segment is matched as a literal key, `?` included.  When such a segment's
literal key is absent, `setdot` raises `PathNotFound` under `ignore=false`
and returns the content unchanged under `ignore=true` (by the `ignore`
mechanism, not by optionality). -/
theorem setdot_optional_literal (seg : String) (rest : List String)
    (d : List (String × Val)) (v : Val)
    (_hq : endsWithQ seg = true) (h : lookupD d seg = none) :
    setdot seg rest d v false = .error (.pathNotFound seg (.vdict d)) ∧
    setdot seg rest d v true = .ok d := by
  constructor <;> simp [setdot, h]

/-- Witness for the amended C6 at a concrete input: path `"a?"` on
`{"b": 1}`. -/
theorem setdot_optional_literal_witness :
    setdot "a?" [] [("b", .vint 1)] (.vint 2) true = .ok [("b", .vint 1)] :=
  (setdot_optional_literal "a?" [] [("b", .vint 1)] (.vint 2) rfl rfl).2

/-- C10: `hasdot` is a total boolean test that returns `true` exactly when
the path fully resolves (every segment's key present, every non-final value
a mapping) and `false` in every other case; and on a fully resolving path
without `?` markers, `getdot` returns the same resolved leaf value. -/
theorem hasdot_resolve (seg : String) (rest : List String) (m : Val) :
    (hasdot seg rest m = true ↔ (resolveDot seg rest m).isSome = true) ∧
    ((∀ s ∈ seg :: rest, endsWithQ s = false) → ∀ v,
      resolveDot seg rest m = some v →
      getdot seg rest m none false = .ok v) := by
  induction rest generalizing seg m with
  | nil =>
    cases m with
    | vdict d =>
      refine ⟨?_, ?_⟩
      · cases hl : lookupD d seg <;> simp [hasdot, resolveDot, hl]
      · intro hq v hres
        have hl : lookupD d seg = some v := by
          cases hl0 : lookupD d seg with
          | none => simp [resolveDot, hl0] at hres
          | some u =>
            simp [resolveDot, hl0] at hres
            rw [hres]
        have hs : rstripQ seg = seg := rstripQ_eq_self seg (hq seg (by simp))
        simp [getdot, hs, hl]
    | vnone => simp [hasdot, resolveDot]
    | vint n => simp [hasdot, resolveDot]
    | vstr s => simp [hasdot, resolveDot]
    | vbool b => simp [hasdot, resolveDot]
  | cons r rs ih =>
    cases m with
    | vdict d =>
      cases hl : lookupD d seg with
      | none => simp [hasdot, resolveDot, hl]
      | some res =>
        cases res with
        | vdict sub =>
          refine ⟨?_, ?_⟩
          · simpa [hasdot, resolveDot, hl] using (ih r (.vdict sub)).1
          · intro hq v hres
            have hres2 : resolveDot r rs (.vdict sub) = some v := by
              simpa [resolveDot, hl] using hres
            have hget := (ih r (.vdict sub)).2
              (fun s hs => hq s (List.mem_cons_of_mem _ hs)) v hres2
            have hs : rstripQ seg = seg :=
              rstripQ_eq_self seg (hq seg (by simp))
            simp [getdot, hs, hl, hget]
        | vnone => simp [hasdot, resolveDot, hl]
        | vint n => simp [hasdot, resolveDot, hl]
        | vstr s => simp [hasdot, resolveDot, hl]
        | vbool b => simp [hasdot, resolveDot, hl]
    | vnone => simp [hasdot, resolveDot]
    | vint n => simp [hasdot, resolveDot]
    | vstr s => simp [hasdot, resolveDot]
    | vbool b => simp [hasdot, resolveDot]

/-- Witness for C10 at the source doctest input: `"data.value"` fully
resolves in `{"data": {"value": 2}}`, and `getdot` returns the leaf `2`. -/
theorem hasdot_resolve_witness :
    getdot "data" ["value"] (.vdict [("data", .vdict [("value", .vint 2)])])
      none false = .ok (.vint 2) :=
  (hasdot_resolve "data" ["value"]
      (.vdict [("data", .vdict [("value", .vint 2)])])).2
    (by decide) (.vint 2) rfl

/-- A Python runtime value as seen by `isinstance_check`: the basic scalars,
the containers the matcher dispatches on (list, tuple, dict, set), and
callables (functions, identified by name; the matcher only asks whether a
value is invokable). -/
inductive PyVal where
  | pnone : PyVal
  | pint : Int → PyVal
  | pstr : String → PyVal
  | pbool : Bool → PyVal
  | plist : List PyVal → PyVal
  | ptuple : List PyVal → PyVal
  | pdict : List (PyVal × PyVal) → PyVal
  | pset : List PyVal → PyVal
  | pfunc : String → PyVal

/-- A plain (non-generic) Python type usable with `isinstance` /
`issubclass`. -/
inductive PlainTy where
  | noneTy : PlainTy
  | intTy : PlainTy
  | strTy : PlainTy
  | boolTy : PlainTy
  | listTy : PlainTy
  | tupleTy : PlainTy
  | dictTy : PlainTy
  | setTy : PlainTy

/-- Python `isinstance(check, t)` (equally `issubclass(check.__class__, t)`)
for a plain type, including `bool` being a subclass of `int`. -/
def pyIsinstance : PyVal → PlainTy → Bool
  | .pnone, .noneTy => true
  | .pbool _, .boolTy => true
  | .pbool _, .intTy => true
  | .pint _, .intTy => true
  | .pstr _, .strTy => true
  | .plist _, .listTy => true
  | .ptuple _, .tupleTy => true
  | .pdict _, .dictTy => true
  | .pset _, .setTy => true
  | _, _ => false

/-- Python `callable(check)` (equally
`issubclass(check.__class__, collections.abc.Callable)`). -/
def pyCallable : PyVal → Bool
  | .pfunc _ => true
  | _ => false

/-- A type descriptor as dispatched on by `isinstance_check`: a plain type,
the `typing.NoReturn` / `typing.Any` sentinels, `Union[D1..Dn]` (subsuming
`Optional`), `Dict[K, V]`, `List[D]`, fixed-arity `Tuple[D1..Dn]`,
`Tuple[D, ...]`, bare `Callable`, and `Set[D]` — a generic alias whose
origin (`set`) falls outside the matcher's dispatch table, standing for the
unsupported-descriptor shapes that reach the `NotImplementedError` raise. -/
inductive Descr where
  | plain : PlainTy → Descr
  | noReturnD : Descr
  | anyD : Descr
  | unionD : List Descr → Descr
  | dictD : Descr → Descr → Descr
  | listD : Descr → Descr
  | tupleD : List Descr → Descr
  | tupleE : Descr → Descr
  | callableD : Descr
  | setD : Descr → Descr

theorem Descr_sizeOf_pos (d : Descr) : 0 < sizeOf d := by
  cases d <;> simp_arith

mutual

/-- Shallow embedding of `isinstance_check` (source lines 50-106).
Errors model the `NotImplementedError` raise (carrying its message); the
`ValueError` of `merge.zip_equal` is caught inside the fixed-arity tuple
case and becomes the boolean `false` (see `tupleAll`). -/
def isinstance_check : PyVal → Descr → Except String Bool
  | check, .plain t => .ok (pyIsinstance check t)
  | check, .noReturnD => .ok (check matches .pnone)
  | _, .anyD => .ok true
  | check, .unionD args => unionAny check args
  | check, .dictD kD vD =>
    match check with
    | .pdict items => dictAll items kD vD
    | _ => .ok false
  | check, .listD d =>
    match check with
    | .plist xs => homoAll xs d
    | _ => .ok false
  | check, .tupleE d =>
    match check with
    | .ptuple xs => homoAll xs d
    | _ => .ok false
  | check, .tupleD args =>
    match check with
    | .ptuple xs => tupleAll xs args
    | _ => .ok false
  | check, .callableD => .ok (pyCallable check)
  | check, .setD _ =>
    if pyIsinstance check .setTy then
      .error "It can not check typing instance of this pair."
    else .ok false
termination_by _c d => (sizeOf d, 0)

/-- `any(isinstance_check(check, typ) for typ in get_args(instance))`:
left-to-right, short-circuiting on the first match, propagating a raise. -/
def unionAny : PyVal → List Descr → Except String Bool
  | _, [] => .ok false
  | check, d :: rest => do
    if (← isinstance_check check d) then .ok true else unionAny check rest
termination_by _c args => (sizeOf args, 0)

/-- `all(isinstance_check(k, K) and isinstance_check(v, V) for k, v in
check.items())`: short-circuiting `and` and `all`, propagating a raise. -/
def dictAll : List (PyVal × PyVal) → Descr → Descr → Except String Bool
  | [], _, _ => .ok true
  | (k, v) :: items, kD, vD => do
    if (← isinstance_check k kD) then
      if (← isinstance_check v vD) then dictAll items kD vD else .ok false
    else .ok false
termination_by items kD vD => (sizeOf kD + sizeOf vD, items.length + 1)
decreasing_by
  · exact Prod.Lex.left _ _ (by have := Descr_sizeOf_pos vD; omega)
  · exact Prod.Lex.left _ _ (by have := Descr_sizeOf_pos kD; omega)
  · exact Prod.Lex.right _ (by simp [List.length_cons])

/-- `all(isinstance_check(i, args[0]) for i in iter(check))` for the
homogeneous cases (`List[D]`, `Tuple[D, ...]`). -/
def homoAll : List PyVal → Descr → Except String Bool
  | [], _ => .ok true
  | x :: xs, d => do
    if (← isinstance_check x d) then homoAll xs d else .ok false
termination_by xs d => (sizeOf d, xs.length + 1)

/-- `all(isinstance_check(i[0], i[1]) for i in merge.zip_equal(check, args))`
wrapped in `try/except ValueError: return False`: pairs are consumed lazily,
so a failing pair short-circuits to `false` before the length check, a
leftover on either side is `zip_equal`'s `ValueError` (caught, `false`), and
a raise from a pair's recursive check propagates. -/
def tupleAll : List PyVal → List Descr → Except String Bool
  | [], [] => .ok true
  | [], _ :: _ => .ok false
  | _ :: _, [] => .ok false
  | x :: xs, d :: ds => do
    if (← isinstance_check x d) then tupleAll xs ds else .ok false
termination_by xs args => (sizeOf args, xs.length + 1)

end

@[simp]
theorem except_ok_bind {ε α β : Type} (a : α) (f : α → Except ε β) :
    (Except.ok a >>= f) = f a := rfl

@[simp]
theorem except_error_bind {ε α β : Type} (e : ε) (f : α → Except ε β) :
    ((Except.error e : Except ε α) >>= f) = Except.error e := rfl

mutual

/-- A descriptor built only from the shapes `isinstance_check` supports —
the spec's closed `TypeDescriptor` universe.  `Set[D]` (the stand-in for
generic aliases outside the dispatch table) is not well-formed. -/
def wfDescr : Descr → Bool
  | .plain _ => true
  | .noReturnD => true
  | .anyD => true
  | .callableD => true
  | .unionD args => wfList args
  | .dictD kD vD => wfDescr kD && wfDescr vD
  | .listD d => wfDescr d
  | .tupleE d => wfDescr d
  | .tupleD args => wfList args
  | .setD _ => false

def wfList : List Descr → Bool
  | [] => true
  | d :: ds => wfDescr d && wfList ds

end

theorem wfList_mem {args : List Descr} (h : wfList args = true)
    {d : Descr} (hd : d ∈ args) : wfDescr d = true := by
  induction args with
  | nil => cases hd
  | cons d0 ds ih =>
    rw [wfList] at h
    rcases List.mem_cons.mp hd with heq | hmem
    · exact heq ▸ (Bool.and_eq_true_iff.mp h).1
    · exact ih (Bool.and_eq_true_iff.mp h).2 hmem

theorem wfList_iff (args : List Descr) :
    wfList args = true ↔ ∀ d ∈ args, wfDescr d = true := by
  induction args with
  | nil => simp [wfList]
  | cons d0 ds ih => simp [wfList, Bool.and_eq_true_iff, ih]

theorem unionAny_total_of (check : PyVal) (args : List Descr)
    (h : ∀ d ∈ args, ∃ b, isinstance_check check d = .ok b) :
    ∃ b, unionAny check args = .ok b := by
  induction args with
  | nil => exact ⟨false, by simp [unionAny]⟩
  | cons d rest ih =>
    obtain ⟨b, hb⟩ := h d (by simp)
    cases b with
    | false =>
      obtain ⟨b2, hb2⟩ := ih (fun d2 hd2 => h d2 (by simp [hd2]))
      exact ⟨b2, by simp [unionAny, hb, hb2]⟩
    | true => exact ⟨true, by simp [unionAny, hb]⟩

theorem unionAny_ok_iff (check : PyVal) (args : List Descr)
    (h : ∀ d ∈ args, ∃ b, isinstance_check check d = .ok b) :
    (unionAny check args = .ok true ↔
      ∃ d ∈ args, isinstance_check check d = .ok true) := by
  induction args with
  | nil => simp [unionAny]
  | cons d rest ih =>
    obtain ⟨b, hb⟩ := h d (by simp)
    cases b with
    | false =>
      have ih2 := ih (fun d2 hd2 => h d2 (by simp [hd2]))
      simp [unionAny, hb, ih2]
    | true => simp [unionAny, hb]

theorem dictAll_total_of (items : List (PyVal × PyVal)) (kD vD : Descr)
    (hk : ∀ x, ∃ b, isinstance_check x kD = .ok b)
    (hv : ∀ x, ∃ b, isinstance_check x vD = .ok b) :
    ∃ b, dictAll items kD vD = .ok b := by
  induction items with
  | nil => exact ⟨true, by simp [dictAll]⟩
  | cons kv rest ih =>
    obtain ⟨k, v⟩ := kv
    obtain ⟨bk, hbk⟩ := hk k
    obtain ⟨bv, hbv⟩ := hv v
    obtain ⟨br, hbr⟩ := ih
    cases bk with
    | false => exact ⟨false, by simp [dictAll, hbk]⟩
    | true =>
      cases bv with
      | false => exact ⟨false, by simp [dictAll, hbk, hbv]⟩
      | true => exact ⟨br, by simp [dictAll, hbk, hbv, hbr]⟩

theorem homoAll_total_of (xs : List PyVal) (d : Descr)
    (h : ∀ x, ∃ b, isinstance_check x d = .ok b) :
    ∃ b, homoAll xs d = .ok b := by
  induction xs with
  | nil => exact ⟨true, by simp [homoAll]⟩
  | cons x rest ih =>
    obtain ⟨b, hb⟩ := h x
    obtain ⟨br, hbr⟩ := ih
    cases b with
    | false => exact ⟨false, by simp [homoAll, hb]⟩
    | true => exact ⟨br, by simp [homoAll, hb, hbr]⟩

theorem tupleAll_eq (xs : List PyVal) (args : List Descr)
    (h : ∀ d ∈ args, ∀ x, ∃ b, isinstance_check x d = .ok b) :
    (∃ b, tupleAll xs args = .ok b) ∧
    (tupleAll xs args = .ok true ↔
      xs.length = args.length ∧
      ∀ p ∈ xs.zip args, isinstance_check p.1 p.2 = .ok true) := by
  induction xs generalizing args with
  | nil =>
    cases args with
    | nil => exact ⟨⟨true, by simp [tupleAll]⟩, by simp [tupleAll]⟩
    | cons d ds => exact ⟨⟨false, by simp [tupleAll]⟩, by simp [tupleAll]⟩
  | cons x rest ih =>
    cases args with
    | nil => exact ⟨⟨false, by simp [tupleAll]⟩, by simp [tupleAll]⟩
    | cons d ds =>
      obtain ⟨b, hb⟩ := h d (by simp) x
      cases b with
      | false =>
        refine ⟨⟨false, by simp [tupleAll, hb]⟩, ?_⟩
        rw [show tupleAll (x :: rest) (d :: ds) = .ok false by
          simp [tupleAll, hb]]
        constructor
        · intro hcontra
          simp at hcontra
        · rintro ⟨hlen, hall⟩
          have hx := hall (x, d) (by simp [List.zip_cons_cons])
          rw [hb] at hx
          simp at hx
      | true =>
        obtain ⟨⟨br, hbr⟩, hiff⟩ := ih ds (fun d2 hd2 => h d2 (by simp [hd2]))
        refine ⟨⟨br, by simp [tupleAll, hb, hbr]⟩, ?_⟩
        rw [show tupleAll (x :: rest) (d :: ds) = tupleAll rest ds by
          simp [tupleAll, hb]]
        rw [hiff]
        constructor
        · rintro ⟨hlen, hall⟩
          exact ⟨by simp [hlen], by
            intro p hp
            rcases List.mem_cons.mp (by simpa using hp) with heq | hmem
            · rw [heq]; exact hb
            · exact hall p hmem⟩
        · rintro ⟨hlen, hall⟩
          exact ⟨by simpa using hlen,
            fun p hp => hall p (by simp [hp])⟩

theorem isinstance_check_total_aux :
    ∀ (n : Nat) (d : Descr), sizeOf d ≤ n → wfDescr d = true →
    ∀ check, ∃ b, isinstance_check check d = .ok b := by
  intro n
  induction n with
  | zero =>
    intro d hle _ _
    have := Descr_sizeOf_pos d
    omega
  | succ n ih =>
    intro d hle hwf check
    cases d with
    | plain t => exact ⟨pyIsinstance check t, by simp [isinstance_check]⟩
    | noReturnD =>
      cases check
      case pnone => exact ⟨true, by simp [isinstance_check]⟩
      all_goals exact ⟨false, by simp [isinstance_check]⟩
    | anyD => exact ⟨true, by simp [isinstance_check]⟩
    | callableD => exact ⟨pyCallable check, by simp [isinstance_check]⟩
    | setD dd => simp [wfDescr] at hwf
    | unionD args =>
      have hsz : sizeOf (Descr.unionD args) = 1 + sizeOf args := by simp
      have hmem : ∀ dsc ∈ args, ∃ b, isinstance_check check dsc = .ok b := by
        intro dsc hd
        have h1 : sizeOf dsc < sizeOf args := List.sizeOf_lt_of_mem hd
        exact ih dsc (by omega)
          (wfList_mem (by simpa [wfDescr] using hwf) hd) check
      obtain ⟨b, hb⟩ := unionAny_total_of check args hmem
      exact ⟨b, by simp [isinstance_check, hb]⟩
    | dictD kD vD =>
      have hsz : sizeOf (Descr.dictD kD vD) = 1 + sizeOf kD + sizeOf vD := by
        simp
      have hpk := Descr_sizeOf_pos kD
      have hpv := Descr_sizeOf_pos vD
      obtain ⟨hwk, hwv⟩ : wfDescr kD = true ∧ wfDescr vD = true := by
        simpa [wfDescr, Bool.and_eq_true_iff] using hwf
      cases check
      case pdict items =>
        obtain ⟨b, hb⟩ := dictAll_total_of items kD vD
          (fun x => ih kD (by omega) hwk x)
          (fun x => ih vD (by omega) hwv x)
        exact ⟨b, by simp [isinstance_check, hb]⟩
      all_goals exact ⟨false, by simp [isinstance_check]⟩
    | listD dd =>
      have hsz : sizeOf (Descr.listD dd) = 1 + sizeOf dd := by simp
      have hwd : wfDescr dd = true := by simpa [wfDescr] using hwf
      cases check
      case plist xs =>
        obtain ⟨b, hb⟩ :=
          homoAll_total_of xs dd (fun x => ih dd (by omega) hwd x)
        exact ⟨b, by simp [isinstance_check, hb]⟩
      all_goals exact ⟨false, by simp [isinstance_check]⟩
    | tupleE dd =>
      have hsz : sizeOf (Descr.tupleE dd) = 1 + sizeOf dd := by simp
      have hwd : wfDescr dd = true := by simpa [wfDescr] using hwf
      cases check
      case ptuple xs =>
        obtain ⟨b, hb⟩ :=
          homoAll_total_of xs dd (fun x => ih dd (by omega) hwd x)
        exact ⟨b, by simp [isinstance_check, hb]⟩
      all_goals exact ⟨false, by simp [isinstance_check]⟩
    | tupleD args =>
      have hsz : sizeOf (Descr.tupleD args) = 1 + sizeOf args := by simp
      have hmem : ∀ dsc ∈ args, ∀ x, ∃ b, isinstance_check x dsc = .ok b := by
        intro dsc hd x
        have h1 : sizeOf dsc < sizeOf args := List.sizeOf_lt_of_mem hd
        exact ih dsc (by omega)
          (wfList_mem (by simpa [wfDescr] using hwf) hd) x
      cases check
      case ptuple xs =>
        obtain ⟨b, hb⟩ := (tupleAll_eq xs args hmem).1
        exact ⟨b, by simp [isinstance_check, hb]⟩
      all_goals exact ⟨false, by simp [isinstance_check]⟩

/-- On any well-formed descriptor (the spec's `TypeDescriptor` universe)
`isinstance_check` never raises. -/
theorem isinstance_check_total (check : PyVal) (d : Descr)
    (hwf : wfDescr d = true) : ∃ b, isinstance_check check d = .ok b :=
  isinstance_check_total_aux (sizeOf d) d le_rfl hwf check

theorem isinstance_check_pnone_total_aux :
    ∀ (n : Nat) (d : Descr), sizeOf d ≤ n →
    ∃ b, isinstance_check PyVal.pnone d = .ok b := by
  intro n
  induction n with
  | zero =>
    intro d hle
    have := Descr_sizeOf_pos d
    omega
  | succ n ih =>
    intro d hle
    cases d with
    | plain t => exact ⟨pyIsinstance .pnone t, by simp [isinstance_check]⟩
    | noReturnD => exact ⟨true, by simp [isinstance_check]⟩
    | anyD => exact ⟨true, by simp [isinstance_check]⟩
    | callableD => exact ⟨false, by simp [isinstance_check, pyCallable]⟩
    | setD dd => exact ⟨false, by simp [isinstance_check, pyIsinstance]⟩
    | dictD kD vD => exact ⟨false, by simp [isinstance_check]⟩
    | listD dd => exact ⟨false, by simp [isinstance_check]⟩
    | tupleE dd => exact ⟨false, by simp [isinstance_check]⟩
    | tupleD args => exact ⟨false, by simp [isinstance_check]⟩
    | unionD args =>
      have hsz : sizeOf (Descr.unionD args) = 1 + sizeOf args := by simp
      have hmem : ∀ dsc ∈ args, ∃ b, isinstance_check .pnone dsc = .ok b := by
        intro dsc hd
        have h1 : sizeOf dsc < sizeOf args := List.sizeOf_lt_of_mem hd
        exact ih dsc (by omega)
      obtain ⟨b, hb⟩ := unionAny_total_of .pnone args hmem
      exact ⟨b, by simp [isinstance_check, hb]⟩

/-- `isinstance_check` applied to Python `None` never raises, for any
descriptor: every generic container case rejects `None` at its
origin-subclass test before reaching the raise. -/
theorem isinstance_check_pnone_total (d : Descr) :
    ∃ b, isinstance_check PyVal.pnone d = .ok b :=
  isinstance_check_pnone_total_aux (sizeOf d) d le_rfl

/-- C7: on a tuple value and a fixed-arity tuple descriptor (no `...`),
`isinstance_check` returns the boolean `false` — without raising — whenever
the lengths differ, and on equal lengths returns `true` exactly when every
positional element matches its descriptor. -/
theorem isinstance_check_tuple_arity (xs : List PyVal) (args : List Descr)
    (hwf : wfList args = true) :
    (xs.length ≠ args.length →
      isinstance_check (.ptuple xs) (.tupleD args) = .ok false) ∧
    (xs.length = args.length →
      (isinstance_check (.ptuple xs) (.tupleD args) = .ok true ↔
        ∀ p ∈ xs.zip args, isinstance_check p.1 p.2 = .ok true)) := by
  have htot : ∀ d ∈ args, ∀ x, ∃ b, isinstance_check x d = .ok b :=
    fun d hd x => isinstance_check_total x d (wfList_mem hwf hd)
  obtain ⟨⟨b, hb⟩, hiff⟩ := tupleAll_eq xs args htot
  have hmain : isinstance_check (.ptuple xs) (.tupleD args) =
      tupleAll xs args := by simp [isinstance_check]
  constructor
  · intro hne
    rw [hmain, hb]
    cases b with
    | false => rfl
    | true => exact absurd (hiff.mp hb).1 hne
  · intro heq
    rw [hmain, hiff]
    constructor
    · rintro ⟨_, hall⟩
      exact hall
    · intro hall
      exact ⟨heq, hall⟩

/-- Witness for C7 at the claim's concrete input:
`matches(("s","t"), Tuple[str])` is `false` (arity 2 against 1). -/
theorem isinstance_check_tuple_arity_witness :
    isinstance_check (.ptuple [.pstr "s", .pstr "t"])
      (.tupleD [.plain .strTy]) = .ok false :=
  (isinstance_check_tuple_arity [.pstr "s", .pstr "t"] [.plain .strTy]
    (by simp [wfList, wfDescr])).1 (by simp)

/-- C8 counterexample: the value `1` against the unsupported generic
descriptor `Set[int]` returns the boolean `false` (the origin-subclass test
rejects it first) instead of failing loudly, refuting "for every value ...
must fail loudly (fatal, not a boolean false)". -/
theorem isinstance_check_unsupported_counterexample :
    isinstance_check (.pint 1) (.setD (.plain .intTy)) = .ok false := by
  simp [isinstance_check, pyIsinstance]

/-- C8 amended: for an unsupported generic descriptor shape, the
`NotImplementedError` raise fires only when the value's runtime class passes
the origin-subclass test; every other value gets the boolean `false` from
that test before the raise is reached. -/
theorem isinstance_check_unsupported (check : PyVal) (d : Descr) :
    (pyIsinstance check .setTy = true →
      isinstance_check check (.setD d) =
        .error "It can not check typing instance of this pair.") ∧
    (pyIsinstance check .setTy = false →
      isinstance_check check (.setD d) = .ok false) := by
  constructor <;> intro h <;> simp [isinstance_check, h]

/-- Witness for the amended C8: a set value against `Set[int]` does reach
the raise. -/
theorem isinstance_check_unsupported_witness :
    isinstance_check (.pset []) (.setD (.plain .intTy)) =
      .error "It can not check typing instance of this pair." :=
  (isinstance_check_unsupported (.pset []) (.plain .intTy)).1 rfl

/-- C9: `Union[D1..Dn]` matches exactly when some `Di` matches; the boolean
result is invariant under permutation of the `Di`; and `None` matches
`Optional[D]` (that is, `Union[D, NoneType]`) for every descriptor `D`. -/
theorem isinstance_check_union_semantics (check : PyVal)
    (args args2 : List Descr) (hwf : wfList args = true) :
    (isinstance_check check (.unionD args) = .ok true ↔
      ∃ d ∈ args, isinstance_check check d = .ok true) ∧
    (args.Perm args2 →
      isinstance_check check (.unionD args) =
        isinstance_check check (.unionD args2)) ∧
    (∀ d, isinstance_check PyVal.pnone (.unionD [d, .plain .noneTy]) =
      .ok true) := by
  have htot : ∀ d ∈ args, ∃ b, isinstance_check check d = .ok b :=
    fun d hd => isinstance_check_total check d (wfList_mem hwf hd)
  have hmain : ∀ (l : List Descr) (c : PyVal),
      isinstance_check c (.unionD l) = unionAny c l := by
    intro l c
    simp [isinstance_check]
  refine ⟨?_, ?_, ?_⟩
  · rw [hmain, unionAny_ok_iff check args htot]
  · intro hperm
    have hwf2 : wfList args2 = true := by
      rw [wfList_iff] at hwf ⊢
      exact fun d hd => hwf d (hperm.mem_iff.mpr hd)
    have htot2 : ∀ d ∈ args2, ∃ b, isinstance_check check d = .ok b :=
      fun d hd => isinstance_check_total check d (wfList_mem hwf2 hd)
    obtain ⟨b1, hb1⟩ := unionAny_total_of check args htot
    obtain ⟨b2, hb2⟩ := unionAny_total_of check args2 htot2
    have hiff1 := unionAny_ok_iff check args htot
    have hiff2 := unionAny_ok_iff check args2 htot2
    rw [hb1] at hiff1
    rw [hb2] at hiff2
    rw [hmain, hmain, hb1, hb2]
    cases b1 with
    | true =>
      cases b2 with
      | true => rfl
      | false =>
        exfalso
        obtain ⟨d0, hd0, hx⟩ := hiff1.mp rfl
        have hcontra : (Except.ok false : Except String Bool) = .ok true :=
          hiff2.mpr ⟨d0, hperm.mem_iff.mp hd0, hx⟩
        simp at hcontra
    | false =>
      cases b2 with
      | false => rfl
      | true =>
        exfalso
        obtain ⟨d0, hd0, hx⟩ := hiff2.mp rfl
        have hcontra : (Except.ok false : Except String Bool) = .ok true :=
          hiff1.mpr ⟨d0, hperm.mem_iff.mpr hd0, hx⟩
        simp at hcontra
  · intro d
    obtain ⟨b, hb⟩ := isinstance_check_pnone_total d
    cases b with
    | true => rw [hmain]; simp [unionAny, hb]
    | false =>
      rw [hmain]
      simp [unionAny, hb, isinstance_check, pyIsinstance]

/-- Witness for C9 at the claim's concrete input:
`matches(None, Optional[str]) == true`. -/
theorem isinstance_check_union_semantics_witness :
    isinstance_check PyVal.pnone (.unionD [.plain .strTy, .plain .noneTy]) =
      .ok true :=
  (isinstance_check_union_semantics PyVal.pnone [] []
    (by simp [wfList])).2.2 (.plain .strTy)
